import Mathlib

/-!
Shallow embedding of the `pico_link` action handlers and controller of the
smartqasa/pico-connector repository, together with theorems checking the
natural-language specification's claims against the code.

Each definition is translated from the Python source file named in its doc
comment.  Machine floats appearing in the source (Python `round`, float
division) are modelled over `ℚ` with round-half-to-even, which coincides with
the float computation on the value ranges involved (quotients of small
integers, never closer to a rounding tie than the float error).
-/

namespace PicoLink

/-! ## Python `round` (round-half-to-even) -/

/-- Round-half-to-even of the natural quotient `a / b` (with `b > 0`), as
Python's builtin `round` computes it on the exact values that arise in
`fan_actions.py` (`round(i * 100 / steps)`). -/
def rhe (a b : ℕ) : ℕ :=
  let q := a / b
  let r := a % b
  if 2 * r < b then q
  else if b < 2 * r then q + 1
  else if q % 2 = 0 then q else q + 1

/-- Round-half-to-even on rationals, as Python's builtin `round` computes it
on floats far from rounding ties (used for `round((brightness / 255) * 100)`
in `light_actions.py`). -/
def roundHalfEvenQ (q : ℚ) : ℤ :=
  let f : ℤ := ⌊q⌋
  let frac : ℚ := q - (f : ℚ)
  if frac < 1/2 then f
  else if (1:ℚ)/2 < frac then f + 1
  else if f % 2 = 0 then f else f + 1

/-! ## Fan speed ladder and discrete stepping
(`custom_components/pico_link/actions/fan_actions.py`) -/

/-- Embedding of `FanActions._build_speed_ladder`:
`steps = speeds - 1; [round(i * 100 / steps) for i in range(speeds)]`. -/
def buildSpeedLadder (speeds : ℕ) : List ℕ :=
  (List.range speeds).map (fun i => rhe (i * 100) (speeds - 1))

/-- First-minimizer argmin over the remaining list, tracking the best index
and best distance so far.  Mirrors Python
`min(range(len(ladder)), key=lambda i: abs(ladder[i] - current))`, whose
`min` keeps the earliest index on ties. -/
def argminAbsAux (c : ℚ) : List ℕ → ℕ → ℕ → ℚ → ℕ
  | [], _, best, _ => best
  | v :: rest, i, best, bestD =>
      if |(v : ℚ) - c| < bestD then argminAbsAux c rest (i + 1) i |(v : ℚ) - c|
      else argminAbsAux c rest (i + 1) best bestD

/-- Index of the first element of `l` minimizing `|l i - c|` (0 when `l` is
empty; Python's `min` over an empty range would raise, but the ladder is
nonempty whenever `_build_speed_ladder` returns). -/
def argminAbs (l : List ℕ) (c : ℚ) : ℕ :=
  match l with
  | [] => 0
  | v :: rest => argminAbsAux c rest 1 0 |(v : ℚ) - c|

/-- Embedding of the core of `FanActions._step_discrete` for a known current
percentage: build the ladder, find the closest index, move one index in
`direction` clamped to the ladder ends, and emit nothing when the index does
not change (`if new_idx == idx: return`); otherwise emit
`set_percentage(ladder[new_idx])`. -/
def stepDiscrete (speeds : ℕ) (current : ℚ) (direction : ℤ) : Option ℕ :=
  let ladder := buildSpeedLadder speeds
  let idx := argminAbs ladder current
  let newIdx : ℤ := max 0 (min ((ladder.length : ℤ) - 1) ((idx : ℤ) + direction))
  if newIdx = (idx : ℤ) then none
  else some (ladder.getD newIdx.toNat 0)

/-! ## Light brightness stepping
(`custom_components/pico_link/actions/light_actions.py`) -/

/-- Value of the `brightness` attribute as seen by `_step_brightness`:
absent (`None`), present but failing `int(raw_brightness)` (the
`except` branch), or an integer. -/
inductive RawBrightness where
  | absent : RawBrightness
  | malformed : RawBrightness
  | intVal : ℤ → RawBrightness
deriving DecidableEq, Repr

/-- The `current_pct` computation of `LightActions._step_brightness`:
`0` when the attribute is missing or unparseable, otherwise
`round((int(raw_brightness) / 255) * 100)`. -/
def currentPct : RawBrightness → ℤ
  | RawBrightness.absent => 0
  | RawBrightness.malformed => 0
  | RawBrightness.intVal b => roundHalfEvenQ ((b : ℚ) / 255 * 100)

/-- Service call issued to Home Assistant: service name and the integral
payload value (`brightness_pct` for lights). -/
structure SvcCall where
  service : String
  value : ℤ
deriving DecidableEq, Repr

/-- Embedding of the tail of `LightActions._step_brightness` (the code after
the entity-state guard): compute `new_pct`, clamp to the configured low bound
when lowering, clamp into `[1, 100]`, and call `light.turn_on` with
`brightness_pct = new_pct`. -/
def stepBrightnessCall (stepPct lowPct : ℤ) (raw : RawBrightness)
    (direction : ℤ) : SvcCall :=
  let newPct := currentPct raw + stepPct * direction
  let newPct := if direction < 0 then max lowPct newPct else newPct
  let newPct := min 100 (max 1 newPct)
  { service := "turn_on", value := newPct }

/-! ## Cover `press_on` (`custom_components/pico_link/actions/cover_actions.py`) -/

/-- Commands a cover handler can issue. -/
inductive CoverCmd where
  | stopCover : CoverCmd
  | openCover : CoverCmd
  | closeCover : CoverCmd
  | setPosition : ℤ → CoverCmd
deriving DecidableEq, Repr

/-- Embedding of `CoverActions._is_moving`: `False` when the entity has no
state, else whether the reported state string is `opening` or `closing`. -/
def isMovingState (st : Option String) : Bool :=
  match st with
  | none => false
  | some s => s = "opening" ∨ s = "closing"

/-- Embedding of `CoverActions.press_on` together with `_open_to_position`:
stop when moving, else `open_cover` when the configured open position is
exactly 100, else `set_cover_position(open_pos)`. -/
def coverPressOn (st : Option String) (openPos : ℤ) : List CoverCmd :=
  if isMovingState st then [CoverCmd.stopCover]
  else if openPos = 100 then [CoverCmd.openCover]
  else [CoverCmd.setPosition openPos]

/-! ## Media-player power plus mute sequencing, and `SharedUtils.call_service`
(`custom_components/pico_link/actions/media_player_actions.py`,
`custom_components/pico_link/shared_utils.py`) -/

/-- Severity at which `SharedUtils.call_service` logs a downstream failure. -/
inductive Severity where
  | error : Severity
  | debug : Severity
deriving DecidableEq, Repr

/-- Observable outcome of a sequence of `call_service` invocations: the
service calls attempted against the Command Sink, in order, and the log
entries produced. -/
structure CallTrace where
  attempted : List String
  logs : List (Severity × String)
deriving DecidableEq, Repr

/-- Sequential composition of two call traces (one `await` after another). -/
def CallTrace.seq (a b : CallTrace) : CallTrace :=
  { attempted := a.attempted ++ b.attempted, logs := a.logs ++ b.logs }

/-- Embedding of `SharedUtils.call_service`: the service call is always
attempted; when the Command Sink raises (oracle `fails`), the exception is
caught and logged — at `debug` severity when `continue_on_error` is set,
at `error` severity otherwise — and the function returns normally either
way. -/
def callService (fails : String → Bool) (svc : String)
    (continueOnError : Bool) : CallTrace :=
  { attempted := [svc]
    logs := if fails svc then
        [((if continueOnError then Severity.debug else Severity.error), svc)]
      else [] }

/-- Embedding of `MediaPlayerActions._turn_on`: `media_player.turn_on`,
then `media_player.volume_mute(is_volume_muted=False)` with
`continue_on_error=True`. -/
def mediaTurnOn (fails : String → Bool) : CallTrace :=
  CallTrace.seq (callService fails "turn_on" false)
    (callService fails "volume_mute_unmute" true)

/-- Embedding of `MediaPlayerActions._turn_off`: `media_player.turn_off`,
then `media_player.volume_mute(is_volume_muted=True)` with
`continue_on_error=True`. -/
def mediaTurnOff (fails : String → Bool) : CallTrace :=
  CallTrace.seq (callService fails "turn_off" false)
    (callService fails "volume_mute_mute" true)

/-! ## Controller event dispatch
(`custom_components/pico_link/controller.py`, `handle_event` inside
`async_start`) -/

/-- Logical buttons accepted by the controller.

Modelled from the spec: the `SUPPORTED_BUTTONS` constant lives in
`pico_link/const.py`, which is not among the provided sources; the spec's
data model fixes the closed set {On, Off, Stop, Raise, Lower}. -/
def supportedButtons : List String := ["on", "off", "stop", "raise", "lower"]

/-- Raw event payload fields used by `handle_event` / `_map_event`. -/
structure EventData where
  deviceIdMatches : Bool
  buttonType : Option String
  action : Option String
deriving DecidableEq, Repr

/-- Embedding of `PicoController._map_event`: require string button and
action fields, lowercase them (inputs here are taken already lowercased),
and accept only `press`/`release` actions. -/
def mapEvent (d : EventData) : Option (String × String) :=
  match d.buttonType, d.action with
  | some b, some a =>
      if a = "press" ∨ a = "release" then some (b, a) else none
  | _, _ => none

/-- A bound behavior profile, as the dispatch boundary sees it: for each
(button, isPress) it either returns normally or raises a Python exception
(modelled as `Except` with a `String` payload). -/
def ProfileFun : Type := String → Bool → Except String Unit

/-- Result of one `handle_event` run: the log entries emitted, and whether
the event subscription is still intact afterwards (`handle_event` never
touches `_unsub_event`, so the embedding threads it through unchanged). -/
structure DispatchOutcome where
  logs : List (Severity × String)
  subscribed : Bool
deriving DecidableEq, Repr

/-- Embedding of the `handle_event` callback of `PicoController.async_start`
for a controller whose behavior profile is already bound: filter by device
id, normalize via `_map_event`, drop unsupported buttons, then dispatch to
`handle_press` / `handle_release` inside `try/except Exception`, logging any
exception at error severity.  The result is an `Except` so that an uncaught
exception would surface as `Except.error`; the `try/except` of the source is
the final `match`, which converts every handler exception into a log
entry. -/
def handleEvent (profile : ProfileFun) (subscribed : Bool) (d : EventData) :
    Except String DispatchOutcome :=
  if ¬ d.deviceIdMatches then Except.ok ⟨[], subscribed⟩
  else
    match mapEvent d with
    | none => Except.ok ⟨[], subscribed⟩
    | some (button, action) =>
        if ¬ (button ∈ supportedButtons) then Except.ok ⟨[], subscribed⟩
        else
          match profile button (action = "press") with
          | Except.ok _ => Except.ok ⟨[], subscribed⟩
          | Except.error e =>
              Except.ok ⟨[(Severity.error, e)], subscribed⟩

/-! ## Immediate-tap press/hold/ramp simulator

Embedding of the per-button press/hold lifecycle shared (line for line in its
control flow) by `FanActions._begin_raise_lower` / `_end_raise_lower` /
`_hold_lifecycle` (`fan_actions.py`), `LightActions._start_raise_lower` /
`_stop_raise_lower` / `_hold_lifecycle_rl` + `_ramp_rl`
(`light_actions.py`), and the raise/lower branches of
`MediaPlayerActions.handle_press` / `handle_release` / `_hold_lifecycle`
(`media_player_actions.py`):

  * press: set `pressed`, record the timestamp, fire one immediate step
    invocation, spawn a hold-lifecycle task and store its handle —
    overwriting, without cancelling, whatever handle was stored before;
  * the hold-lifecycle task sleeps `hold_time`, then returns if the button is
    no longer pressed, else repeatedly invokes a step and sleeps `step_time`
    while the button stays pressed (`asyncio.CancelledError` is swallowed);
  * release: clear `pressed`, cancel the stored task if it is still live,
    clear the stored handle.

Time is in abstract ticks; the event intake is sequential, and spawned tasks
run at their sleep deadlines.  An emission records the invocation of the
step routine (`_step_discrete` / `_step_brightness` / `_step_volume`): the
domain-level decision of what service call that invocation produces is
modelled separately (`stepDiscrete`, `stepBrightnessCall`). -/

/-- Timing configuration (`SharedUtils._hold_time` / `_step_time`). -/
structure ITCfg where
  hold : ℕ
  step : ℕ
deriving DecidableEq, Repr

/-- A step-routine invocation: the immediate tap step fired at press, or a
ramp-loop iteration of the hold task with the given task id. -/
inductive ITEmit where
  | tap : ITEmit
  | ramp : ℕ → ITEmit
deriving DecidableEq, Repr

/-- A live (spawned, neither finished nor cancelled) hold-lifecycle task:
its id and the absolute time of its next wake-up. -/
structure ITTask where
  id : ℕ
  wake : ℕ
deriving DecidableEq, Repr

/-- Handler state for one button: the `_pressed[button]` flag, the stored
`_tasks[button]` handle, the live tasks, a fresh-id counter, and the
chronological emission trace. -/
structure ITState where
  pressed : Bool
  stored : Option ℕ
  tasks : List ITTask
  nextId : ℕ
  trace : List (ℕ × ITEmit)
deriving DecidableEq, Repr

/-- Initial state: `pressed=False`, no stored handle, no live tasks. -/
def ITState.init : ITState :=
  { pressed := false, stored := none, tasks := [], nextId := 0, trace := [] }

/-- Press at time `t` (`_begin_raise_lower`): set pressed, fire the tap step,
spawn a hold task waking at `t + hold`, and store its handle.  The source
does not cancel the previously stored task. -/
def itPress (cfg : ITCfg) (t : ℕ) (s : ITState) : ITState :=
  { pressed := true
    stored := some s.nextId
    tasks := s.tasks ++ [{ id := s.nextId, wake := t + cfg.hold }]
    nextId := s.nextId + 1
    trace := s.trace ++ [(t, ITEmit.tap)] }

/-- Release (`_end_raise_lower`): clear pressed, cancel the stored task when
it is still live (`if task and not task.done(): task.cancel()`), clear the
stored handle.  No command is emitted. -/
def itRelease (s : ITState) : ITState :=
  { pressed := false
    stored := none
    tasks := match s.stored with
      | some i => s.tasks.filter (fun tk => tk.id ≠ i)
      | none => s.tasks
    nextId := s.nextId
    trace := s.trace }

/-- A hold task waking (the `asyncio.sleep` deadline): when the button is
still pressed it performs one step invocation and sleeps `step_time` (both
the first wake after `hold_time` and every ramp-loop iteration have this
shape in the source); when the button is no longer pressed the task
finishes. -/
def itWake (cfg : ITCfg) (tk : ITTask) (s : ITState) : ITState :=
  if s.pressed then
    { s with
      tasks := s.tasks.map (fun u =>
        if u.id = tk.id then { u with wake := tk.wake + cfg.step } else u)
      trace := s.trace ++ [(tk.wake, ITEmit.ramp tk.id)] }
  else
    { s with tasks := s.tasks.filter (fun u => u.id ≠ tk.id) }

/-- First live task with the minimal wake-up time (earlier-spawned task wins
ties, matching asyncio's FIFO ready queue). -/
def minWake? : List ITTask → Option ITTask
  | [] => none
  | tk :: rest =>
      match minWake? rest with
      | none => some tk
      | some tk2 => if tk.wake ≤ tk2.wake then some tk else some tk2

/-- One scheduling step: process the earlier of the next external event and
the next task wake-up (an external event wins a tie, and external events are
processed in list order). -/
def itStep (cfg : ITCfg) (s : ITState) (evs : List (ℕ × Bool)) :
    Option (ITState × List (ℕ × Bool)) :=
  match evs, minWake? s.tasks with
  | [], none => none
  | (t, isP) :: rest, none =>
      some ((if isP then itPress cfg t s else itRelease s), rest)
  | [], some tk => some (itWake cfg tk s, [])
  | (t, isP) :: rest, some tk =>
      if t ≤ tk.wake then
        some ((if isP then itPress cfg t s else itRelease s), rest)
      else
        some (itWake cfg tk s, evs)

/-- Run the simulator for at most `fuel` scheduling steps. -/
def itRun (cfg : ITCfg) : ℕ → ITState → List (ℕ × Bool) → ITState
  | 0, s, _ => s
  | n + 1, s, evs =>
      match itStep cfg s evs with
      | none => s
      | some (s2, evs2) => itRun cfg n s2 evs2

/-! ## Cover raise/lower simulator
(`custom_components/pico_link/actions/cover_actions.py`)

`press_raise` / `press_lower` set the pressed flag, fire one immediate
position-step, and spawn `_hold_lifecycle` — whose handle is *not* stored
and never cancelled; the lifecycle sleeps `hold_time`, returns if the button
was released, else issues a single continuous `open_cover`/`close_cover`.
`release_raise` / `release_lower` clear the flag and always issue
`stop_cover`. -/

/-- Cover configuration for one raise/lower button: hold time,
`cover_step_pct`, the reported `current_position` (snapshot, treated as
constant over the scenario), and which button this is. -/
structure CCfg where
  hold : ℕ
  stepPct : ℤ
  pos : Option ℤ
  isRaise : Bool
deriving DecidableEq, Repr

/-- Commands emitted by the cover raise/lower machinery. -/
inductive CEmit where
  | step : ℤ → CEmit
  | motion : CEmit
  | stop : CEmit
deriving DecidableEq, Repr

/-- A spawned, still-sleeping `_hold_lifecycle` task. -/
structure CTask where
  id : ℕ
  wake : ℕ
deriving DecidableEq, Repr

/-- Cover handler state for one raise/lower button. -/
structure CState where
  pressed : Bool
  tasks : List CTask
  nextId : ℕ
  trace : List (ℕ × CEmit)
deriving DecidableEq, Repr

/-- Initial cover-button state. -/
def CState.init : CState :=
  { pressed := false, tasks := [], nextId := 0, trace := [] }

/-- The position-step command of `CoverActions._step`: nothing when the
entity reports no `current_position`, else `set_cover_position` with
`min(100, pos + step)` for raise and `max(0, pos - step)` for lower. -/
def coverStepEmit (cfg : CCfg) (t : ℕ) : List (ℕ × CEmit) :=
  match cfg.pos with
  | none => []
  | some p =>
      [(t, CEmit.step (if cfg.isRaise then min 100 (p + cfg.stepPct)
                       else max 0 (p - cfg.stepPct)))]

/-- Press (`press_raise` / `press_lower`): set pressed, fire the immediate
step, spawn the hold lifecycle waking at `t + hold` (its handle is not
stored). -/
def cPress (cfg : CCfg) (t : ℕ) (s : CState) : CState :=
  { pressed := true
    tasks := s.tasks ++ [{ id := s.nextId, wake := t + cfg.hold }]
    nextId := s.nextId + 1
    trace := s.trace ++ coverStepEmit cfg t }

/-- Release (`release_raise` / `release_lower`): clear pressed and always
issue `stop_cover`; no task is cancelled. -/
def cRelease (t : ℕ) (s : CState) : CState :=
  { s with
    pressed := false
    trace := s.trace ++ [(t, CEmit.stop)] }

/-- A hold lifecycle waking after `hold_time`: if still pressed, issue the
single continuous `open_cover`/`close_cover` (`_start_motion`); either way
the task finishes. -/
def cWake (tk : CTask) (s : CState) : CState :=
  { s with
    tasks := s.tasks.filter (fun u => u.id ≠ tk.id)
    trace := if s.pressed then s.trace ++ [(tk.wake, CEmit.motion)]
             else s.trace }

/-- First spawned cover task with the minimal wake time. -/
def cMinWake? : List CTask → Option CTask
  | [] => none
  | tk :: rest =>
      match cMinWake? rest with
      | none => some tk
      | some tk2 => if tk.wake ≤ tk2.wake then some tk else some tk2

/-- One cover scheduling step (same discipline as `itStep`). -/
def cStep (cfg : CCfg) (s : CState) (evs : List (ℕ × Bool)) :
    Option (CState × List (ℕ × Bool)) :=
  match evs, cMinWake? s.tasks with
  | [], none => none
  | (t, isP) :: rest, none =>
      some ((if isP then cPress cfg t s else cRelease t s), rest)
  | [], some tk => some (cWake tk s, [])
  | (t, isP) :: rest, some tk =>
      if t ≤ tk.wake then
        some ((if isP then cPress cfg t s else cRelease t s), rest)
      else
        some (cWake tk s, evs)

/-- Run the cover simulator for at most `fuel` scheduling steps. -/
def cRun (cfg : CCfg) : ℕ → CState → List (ℕ × Bool) → CState
  | 0, s, _ => s
  | n + 1, s, evs =>
      match cStep cfg s evs with
      | none => s
      | some (s2, evs2) => cRun cfg n s2 evs2

/-- Well-formed external event streams for one button, relative to the
current pressed flag: presses and releases strictly alternate (each press
reaches a button that is up, each release a button that is down). -/
def WFEvents : Bool → List (ℕ × Bool) → Bool
  | _, [] => true
  | p, (_, isP) :: rest => (isP = !p) && WFEvents isP rest

/-- The per-button task invariant of the immediate-tap handlers: when the
button is up no hold task is live, every live task is the stored one, and at
most one task is live. -/
def ITInv (s : ITState) : Prop :=
  (s.pressed = false → s.tasks = []) ∧
  (∀ tk ∈ s.tasks, s.stored = some tk.id) ∧
  s.tasks.length ≤ 1

/-! ## Light P2B on/off tap-vs-hold release machinery
(`custom_components/pico_link/actions/light_actions.py`,
`_start_onoff_hold` / `_finalize_onoff_hold`) -/

/-- Per-button state of the light handler's P2B on/off machinery: the
`_pressed_onoff[button]` flag, the `_is_holding_onoff[button]` flag, the
stored `_tasks_onoff[button]` handle, the live hold tasks, a fresh-id
counter, and the service commands issued so far. -/
structure LOnOffState where
  pressed : Bool
  isHolding : Bool
  stored : Option ℕ
  tasks : List ITTask
  nextId : ℕ
  trace : List String
deriving DecidableEq, Repr

/-- Initial P2B on/off button state: not pressed, not holding, no task. -/
def LOnOffState.init : LOnOffState :=
  { pressed := false, isHolding := false, stored := none, tasks := [],
    nextId := 0, trace := [] }

/-- Embedding of `LightActions._start_onoff_hold` (press of P2B On/Off):
set the pressed flag, clear the holding flag, record the timestamp, spawn
`_onoff_hold_lifecycle` waking after `hold_time`, and store its handle —
overwriting, without cancelling, whatever handle was stored before. -/
def startOnOffHold (cfg : ITCfg) (t : ℕ) (s : LOnOffState) : LOnOffState :=
  { pressed := true
    isHolding := false
    stored := some s.nextId
    tasks := s.tasks ++ [{ id := s.nextId, wake := t + cfg.hold }]
    nextId := s.nextId + 1
    trace := s.trace }

/-- Embedding of `LightActions._finalize_onoff_hold` (release of P2B
On/Off) for the button's tap command (`turn_on` for On, `turn_off` for
Off): clear the pressed flag, cancel the stored task when it is still live,
fire the tap command unless the hold ramp had started (the
`_is_holding_onoff` flag is read before the reset, with no pressed-flag
guard), then clear the stored handle and the holding flag. -/
def finalizeOnOffHold (tapCmd : String) (s : LOnOffState) : LOnOffState :=
  { pressed := false
    isHolding := false
    stored := none
    tasks := match s.stored with
      | some i => s.tasks.filter (fun tk => tk.id ≠ i)
      | none => s.tasks
    nextId := s.nextId
    trace := if s.isHolding then s.trace else s.trace ++ [tapCmd] }

end PicoLink

namespace PicoLink

/-! # Theorems -/

/-- Unfolded form of the brightness-step clamp chain of
`LightActions._step_brightness`. -/
theorem stepBrightnessCall_value (stepPct lowPct : ℤ) (raw : RawBrightness)
    (d : ℤ) :
    (stepBrightnessCall stepPct lowPct raw d).value =
      min 100 (max 1 (if d < 0 then max lowPct (currentPct raw + stepPct * d)
                      else currentPct raw + stepPct * d)) := rfl

/-- C6: for every reported raw brightness and every configured step and low
bound (a low bound being a percentage, hence at most 100), a brightness step
in the lower direction never emits a percentage below the low bound — in
particular never 0 — and a step in the raise direction never emits a
percentage above 100. -/
theorem light_step_respects_bounds (stepPct lowPct : ℤ) (raw : RawBrightness)
    (hlow : lowPct ≤ 100) :
    (∀ d : ℤ, d < 0 →
      lowPct ≤ (stepBrightnessCall stepPct lowPct raw d).value) ∧
    (∀ d : ℤ, 1 ≤ (stepBrightnessCall stepPct lowPct raw d).value) ∧
    (∀ d : ℤ, (stepBrightnessCall stepPct lowPct raw d).value ≤ 100) := by
  refine ⟨fun d hd => ?_, fun d => ?_, fun d => ?_⟩ <;>
      rw [stepBrightnessCall_value]
  · rw [if_pos hd]
    generalize currentPct raw + stepPct * d = x
    omega
  · rcases lt_or_ge d 0 with hd | hd
    · rw [if_pos hd]
      generalize currentPct raw + stepPct * d = x
      omega
    · rw [if_neg (not_lt.mpr hd)]
      generalize currentPct raw + stepPct * d = x
      omega
  · rcases lt_or_ge d 0 with hd | hd
    · rw [if_pos hd]
      generalize currentPct raw + stepPct * d = x
      omega
    · rw [if_neg (not_lt.mpr hd)]
      generalize currentPct raw + stepPct * d = x
      omega

/-- Closed witness for `light_step_respects_bounds` at a concrete
configuration. -/
theorem light_step_respects_bounds_witness :
    (10 : ℤ) ≤ 100 ∧
    ((5 : ℤ) ≤ (stepBrightnessCall 10 5 (RawBrightness.intVal 128) (-1)).value ∧
     (1 : ℤ) ≤ (stepBrightnessCall 10 5 (RawBrightness.intVal 128) (-1)).value ∧
     (stepBrightnessCall 10 5 (RawBrightness.intVal 128) 1).value ≤ 100) := by
  have h := light_step_respects_bounds 10 5 (RawBrightness.intVal 128)
    (by norm_num)
  exact ⟨by norm_num, h.1 (-1) (by norm_num), h.2.1 (-1), h.2.2 1⟩

/-- C10: when the light reports no brightness attribute (or an unparseable
one) the current level is treated as 0 %, so a single Lower step emits
`turn_on` at the configured low bound clamped to at least 1; and every
brightness step emits a `turn_on` with percentage at least 1, never 0 and
never a `turn_off`. -/
theorem light_step_missing_brightness (stepPct lowPct : ℤ)
    (hstep : 0 ≤ stepPct) (hlow0 : 0 ≤ lowPct) (hlow : lowPct ≤ 100) :
    (stepBrightnessCall stepPct lowPct RawBrightness.absent (-1)
      = { service := "turn_on", value := max 1 lowPct }) ∧
    (stepBrightnessCall stepPct lowPct RawBrightness.malformed (-1)
      = { service := "turn_on", value := max 1 lowPct }) ∧
    (∀ (raw : RawBrightness) (d : ℤ),
      (stepBrightnessCall stepPct lowPct raw d).service = "turn_on" ∧
      1 ≤ (stepBrightnessCall stepPct lowPct raw d).value) := by
  refine ⟨?_, ?_, fun raw d => ⟨rfl, ?_⟩⟩
  · show SvcCall.mk _ _ = _
    rw [SvcCall.mk.injEq]
    refine ⟨rfl, ?_⟩
    show min 100 (max 1 (if (-1 : ℤ) < 0 then
        max lowPct (currentPct RawBrightness.absent + stepPct * (-1))
      else currentPct RawBrightness.absent + stepPct * (-1))) = max 1 lowPct
    rw [if_pos (by norm_num : (-1 : ℤ) < 0)]
    simp only [currentPct]
    have : stepPct * (-1) = -stepPct := by ring
    rw [this]
    omega
  · show SvcCall.mk _ _ = _
    rw [SvcCall.mk.injEq]
    refine ⟨rfl, ?_⟩
    show min 100 (max 1 (if (-1 : ℤ) < 0 then
        max lowPct (currentPct RawBrightness.malformed + stepPct * (-1))
      else currentPct RawBrightness.malformed + stepPct * (-1))) = max 1 lowPct
    rw [if_pos (by norm_num : (-1 : ℤ) < 0)]
    simp only [currentPct]
    have : stepPct * (-1) = -stepPct := by ring
    rw [this]
    omega
  · rw [stepBrightnessCall_value]
    generalize (if d < 0 then max lowPct (currentPct raw + stepPct * d)
      else currentPct raw + stepPct * d) = x
    omega

/-- Closed witness for `light_step_missing_brightness` at a concrete
configuration. -/
theorem light_step_missing_brightness_witness :
    ((0 : ℤ) ≤ 10 ∧ (0 : ℤ) ≤ 5 ∧ (5 : ℤ) ≤ 100) ∧
    stepBrightnessCall 10 5 RawBrightness.absent (-1)
      = { service := "turn_on", value := 5 } := by
  have h := light_step_missing_brightness 10 5 (by norm_num) (by norm_num)
    (by norm_num)
  refine ⟨⟨by norm_num, by norm_num, by norm_num⟩, ?_⟩
  rw [h.1]
  norm_num

/-- C7: `CoverActions.press_on` issues exactly one stop command (and no open
command) when the reported cover state is `opening` or `closing`; otherwise
it issues a full `open_cover` when the configured open position equals 100
and a `set_cover_position` to the configured position in every other
case. -/
theorem cover_press_on_spec (st : Option String) (openPos : ℤ) :
    ((st = some "opening" ∨ st = some "closing") →
      coverPressOn st openPos = [CoverCmd.stopCover]) ∧
    (isMovingState st = false →
      (openPos = 100 → coverPressOn st openPos = [CoverCmd.openCover]) ∧
      (openPos ≠ 100 →
        coverPressOn st openPos = [CoverCmd.setPosition openPos])) := by
  constructor
  · rintro (rfl | rfl) <;> simp [coverPressOn, isMovingState]
  · intro hmov
    refine ⟨fun h100 => ?_, fun h100 => ?_⟩ <;>
      simp [coverPressOn, hmov, h100]

/-- Closed witness for `cover_press_on_spec` on a moving and a resting
cover. -/
theorem cover_press_on_spec_witness :
    ((some "opening" = some "opening" ∨ (some "opening" : Option String)
        = some "closing") ∧
      coverPressOn (some "opening") 100 = [CoverCmd.stopCover]) ∧
    (isMovingState (some "open") = false ∧
      coverPressOn (some "open") 70 = [CoverCmd.setPosition 70]) := by
  refine ⟨⟨Or.inl rfl, (cover_press_on_spec (some "opening") 100).1
      (Or.inl rfl)⟩, ⟨by decide, ?_⟩⟩
  exact ((cover_press_on_spec (some "open") 70).2 (by decide)).2 (by decide)

/-- C8: media-player On performs power-on then an explicit unmute, Off
performs power-off then an explicit mute; the mute/unmute is best-effort —
its failure is logged at debug severity (the `continue_on_error` flag) and
never prevents the paired power command, which is attempted for every
behavior of the Command Sink. -/
theorem media_power_mute_best_effort (fails : String → Bool)
    (h1 : fails "volume_mute_unmute" = true)
    (h2 : fails "volume_mute_mute" = true) :
    (∀ g : String → Bool,
      (mediaTurnOn g).attempted = ["turn_on", "volume_mute_unmute"] ∧
      (mediaTurnOff g).attempted = ["turn_off", "volume_mute_mute"]) ∧
    (Severity.debug, "volume_mute_unmute") ∈ (mediaTurnOn fails).logs ∧
    (Severity.error, "volume_mute_unmute") ∉ (mediaTurnOn fails).logs ∧
    (Severity.debug, "volume_mute_mute") ∈ (mediaTurnOff fails).logs ∧
    (Severity.error, "volume_mute_mute") ∉ (mediaTurnOff fails).logs := by
  refine ⟨fun g => ⟨rfl, rfl⟩, ?_, ?_, ?_, ?_⟩ <;>
    simp only [mediaTurnOn, mediaTurnOff, CallTrace.seq, callService, h1, h2,
      if_true] <;>
    cases hon : fails "turn_on" <;> cases hoff : fails "turn_off" <;>
    simp [hon, hoff]

/-- Closed witness for `media_power_mute_best_effort` with a sink that fails
every call. -/
theorem media_power_mute_best_effort_witness :
    ((fun _ : String => true) "volume_mute_unmute" = true ∧
     (fun _ : String => true) "volume_mute_mute" = true) ∧
    (mediaTurnOn (fun _ => true)).attempted
      = ["turn_on", "volume_mute_unmute"] ∧
    (Severity.debug, "volume_mute_unmute")
      ∈ (mediaTurnOn (fun _ => true)).logs := by
  have h := media_power_mute_best_effort (fun _ => true) rfl rfl
  exact ⟨⟨rfl, rfl⟩, (h.1 (fun _ => true)).1, h.2.1⟩

/-- The rounded quotient `rhe a b` sits within half a unit of the true
quotient: `2*a - b ≤ 2*b*(rhe a b) ≤ 2*a + b`. -/
theorem rhe_bounds (a b : ℕ) (hb : 0 < b) :
    2 * a ≤ 2 * (b * rhe a b) + b ∧ 2 * (b * rhe a b) ≤ 2 * a + b := by
  have h1 : b * (a / b) + a % b = a := Nat.div_add_mod a b
  have h2 : a % b < b := Nat.mod_lt a hb
  simp only [rhe]
  generalize hq : a / b = q at h1
  generalize hr : a % b = r at h1 h2
  split_ifs with c1 c2 c3 <;>
    · first
        | rw [show b * (q + 1) = b * q + b from by ring]
        | skip
      generalize b * q = m at h1 ⊢
      omega

/-- Bounded dividend gives a bounded rounding: `a ≤ 100*b → rhe a b ≤ 100`. -/
theorem rhe_le_100 (a b : ℕ) (hb : 0 < b) (h : a ≤ 100 * b) :
    rhe a b ≤ 100 := by
  have hub := (rhe_bounds a b hb).2
  generalize hm : b * rhe a b = m at hub
  rcases le_or_lt (rhe a b) 100 with h100 | h100
  · exact h100
  · exfalso
    have : 101 * b ≤ m := by
      calc 101 * b = b * 101 := Nat.mul_comm _ _
      _ ≤ b * rhe a b := Nat.mul_le_mul_left b h100
      _ = m := hm
    omega

/-- On the fan ladder's dividends the rounding is strictly increasing step
to step, provided the rung spacing `100 / b` is at least one unit
(`b ≤ 100`). -/
theorem rhe_ladder_succ (i b : ℕ) (hb : 0 < b) (hb100 : b ≤ 100) :
    rhe (i * 100) b < rhe ((i + 1) * 100) b := by
  rcases Nat.lt_or_ge b 100 with hlt | hge
  · have hub := (rhe_bounds (i * 100) b hb).2
    have hlb := (rhe_bounds ((i + 1) * 100) b hb).1
    have harg : (i + 1) * 100 = i * 100 + 100 := by ring
    rw [harg] at hlb
    generalize hm1 : b * rhe (i * 100) b = m1 at hub
    generalize hm2 : b * rhe ((i + 1) * 100) b = m2 at hlb
    rw [harg] at hm2
    have hmm : m1 < m2 := by omega
    rw [← hm1, ← hm2] at hmm
    have := Nat.lt_of_mul_lt_mul_left hmm
    rw [← harg] at this
    exact this
  · have hb' : b = 100 := Nat.le_antisymm hb100 hge
    subst hb'
    have e1 : rhe (i * 100) 100 = i := by
      simp only [rhe, Nat.mul_div_cancel i (by norm_num : (0:ℕ) < 100),
        Nat.mul_mod_left]
      norm_num
    have e2 : rhe ((i + 1) * 100) 100 = i + 1 := by
      simp only [rhe, Nat.mul_div_cancel (i + 1) (by norm_num : (0:ℕ) < 100),
        Nat.mul_mod_left]
      norm_num
    rw [e1, e2]
    exact Nat.lt_succ_self i

/-- The rung map `i ↦ rhe (i*100) b` is strictly monotone for `b ≤ 100`. -/
theorem rhe_ladder_strictMono (b : ℕ) (hb : 0 < b) (hb100 : b ≤ 100) :
    StrictMono (fun i => rhe (i * 100) b) :=
  strictMono_nat_of_lt_succ (fun i => rhe_ladder_succ i b hb hb100)

/-- The top rung of the ladder is exactly 100. -/
theorem rhe_top (b : ℕ) (hb : 0 < b) : rhe (b * 100) b = 100 := by
  simp only [rhe, Nat.mul_div_cancel_left 100 hb, Nat.mul_mod_right]
  norm_num

/-- The bottom rung of the ladder is exactly 0. -/
theorem rhe_bot (b : ℕ) (hb : 0 < b) : rhe (0 * 100) b = 0 := by
  simp [rhe, Nat.zero_div, Nat.zero_mod, hb]

/-- Once the best distance is 0 the first-minimizer scan never moves. -/
theorem argminAbsAux_zero (c : ℚ) :
    ∀ (l : List ℕ) (i best : ℕ), argminAbsAux c l i best 0 = best := by
  intro l
  induction l with
  | nil => intro i best; rfl
  | cons v rest ih =>
      intro i best
      rw [argminAbsAux, if_neg (not_lt.mpr (abs_nonneg _))]
      exact ih (i + 1) best

/-- When all entries but the last are at positive distance from `c` and the
last is at distance 0, the first-minimizer scan lands on the last
position. -/
theorem argminAbsAux_last (c : ℚ) :
    ∀ (l : List ℕ) (i best : ℕ) (bestD : ℚ), 0 < bestD →
      (∀ v ∈ l.dropLast, 0 < |(v : ℚ) - c|) →
      (∀ v : ℕ, l.getLast? = some v → |(v : ℚ) - c| = 0) →
      l ≠ [] →
      argminAbsAux c l i best bestD = i + (l.length - 1) := by
  intro l
  induction l with
  | nil => intro _ _ _ _ _ _ hne; exact absurd rfl hne
  | cons v rest ih =>
      intro i best bestD hpos hdrop hlast _
      rcases rest with _ | ⟨w, rest2⟩
      · have hv : |(v : ℚ) - c| = 0 := hlast v rfl
        rw [argminAbsAux, hv, if_pos hpos]
        simpa using argminAbsAux_zero c [] (i + 1) i
      · have hvpos : 0 < |(v : ℚ) - c| := by
          apply hdrop
          rw [List.dropLast_cons_of_ne_nil (by simp)]
          exact List.mem_cons_self v _
        have hdrop2 : ∀ u ∈ (w :: rest2).dropLast, 0 < |(u : ℚ) - c| := by
          intro u hu
          apply hdrop
          rw [List.dropLast_cons_of_ne_nil (by simp)]
          exact List.mem_cons_of_mem v hu
        have hlast2 : ∀ u : ℕ, (w :: rest2).getLast? = some u →
            |(u : ℚ) - c| = 0 := by
          intro u hu
          apply hlast
          rwa [List.getLast?_cons_cons]
        rw [argminAbsAux]
        split_ifs with hlt
        · rw [ih (i + 1) i _ hvpos hdrop2 hlast2 (by simp)]
          simp only [List.length_cons]
          omega
        · rw [ih (i + 1) best bestD hpos hdrop2 hlast2 (by simp)]
          simp only [List.length_cons]
          omega

/-- Generalized bound on the rounded quotient: `a ≤ k*b → rhe a b ≤ k`. -/
theorem rhe_le_mul (a b k : ℕ) (hb : 0 < b) (h : a ≤ k * b) :
    rhe a b ≤ k := by
  have hub := (rhe_bounds a b hb).2
  rcases le_or_lt (rhe a b) k with hk | hk
  · exact hk
  · exfalso
    have h3 : b * (k + 1) ≤ b * rhe a b := Nat.mul_le_mul_left b hk
    rw [Nat.mul_add, Nat.mul_one, Nat.mul_comm b k] at h3
    generalize hm1 : b * rhe a b = m1 at hub h3
    generalize hm2 : k * b = m2 at h h3
    omega

/-- The first-minimizer scan lands on the first entry at distance 0 when all
earlier entries are at positive distance. -/
theorem argminAbsAux_first_zero (c : ℚ) :
    ∀ (l1 : List ℕ) (l2 : List ℕ) (z : ℕ) (i best : ℕ) (bestD : ℚ),
      0 < bestD → (∀ v ∈ l1, 0 < |(v : ℚ) - c|) → |(z : ℚ) - c| = 0 →
      argminAbsAux c (l1 ++ z :: l2) i best bestD = i + l1.length := by
  intro l1
  induction l1 with
  | nil =>
      intro l2 z i best bestD hpos _ hz
      rw [List.nil_append, argminAbsAux, hz, if_pos hpos,
        argminAbsAux_zero c l2 (i + 1) i]
      simp
  | cons v rest ih =>
      intro l2 z i best bestD hpos hpos1 hz
      have hvpos : 0 < |(v : ℚ) - c| := hpos1 v (List.mem_cons_self v rest)
      have hrest : ∀ u ∈ rest, 0 < |(u : ℚ) - c| :=
        fun u hu => hpos1 u (List.mem_cons_of_mem v hu)
      rw [List.cons_append, argminAbsAux]
      split_ifs with hlt
      · rw [ih l2 z (i + 1) i _ hvpos hrest hz]
        simp only [List.length_cons]
        omega
      · rw [ih l2 z (i + 1) best bestD hpos hrest hz]
        simp only [List.length_cons]
        omega

/-- When the head of the list is at distance 0 from `c`, the first-minimizer
index is 0. -/
theorem argminAbs_head_zero (c : ℚ) (v : ℕ) (rest : List ℕ)
    (hv : |(v : ℚ) - c| = 0) : argminAbs (v :: rest) c = 0 := by
  rw [argminAbs, hv]
  exact argminAbsAux_zero c rest 1 0

/-- The first-minimizer index is the position of the first entry at distance
0 when every earlier entry is at positive distance. -/
theorem argminAbs_first_zero (c : ℚ) (l1 l2 : List ℕ) (z : ℕ)
    (h1 : ∀ v ∈ l1, 0 < |(v : ℚ) - c|) (hz : |(z : ℚ) - c| = 0) :
    argminAbs (l1 ++ z :: l2) c = l1.length := by
  rcases l1 with _ | ⟨v, rest⟩
  · exact argminAbs_head_zero c z l2 hz
  · rw [List.cons_append, argminAbs,
      argminAbsAux_first_zero c rest l2 z 1 0 _
        (h1 v (List.mem_cons_self v rest))
        (fun u hu => h1 u (List.mem_cons_of_mem v hu)) hz]
    simp [Nat.add_comm]

/-- When all entries but the last are at positive distance from `c` and the
last is at distance 0, `argminAbs` returns the last index. -/
theorem argminAbs_last (l : List ℕ) (c : ℚ)
    (hdrop : ∀ v ∈ l.dropLast, 0 < |(v : ℚ) - c|)
    (hlast : ∀ v : ℕ, l.getLast? = some v → |(v : ℚ) - c| = 0)
    (hne : l ≠ []) : argminAbs l c = l.length - 1 := by
  rcases l with _ | ⟨v, rest⟩
  · exact absurd rfl hne
  rcases rest with _ | ⟨w, rest2⟩
  · rfl
  · have hvpos : 0 < |(v : ℚ) - c| := by
      apply hdrop
      rw [List.dropLast_cons_of_ne_nil (by simp)]
      exact List.mem_cons_self v _
    have hdrop2 : ∀ u ∈ (w :: rest2).dropLast, 0 < |(u : ℚ) - c| := by
      intro u hu
      apply hdrop
      rw [List.dropLast_cons_of_ne_nil (by simp)]
      exact List.mem_cons_of_mem v hu
    have hlast2 : ∀ u : ℕ, (w :: rest2).getLast? = some u →
        |(u : ℚ) - c| = 0 := by
      intro u hu
      apply hlast
      rwa [List.getLast?_cons_cons]
    rw [argminAbs,
      argminAbsAux_last c (w :: rest2) 1 0 _ hvpos hdrop2 hlast2 (by simp)]
    simp only [List.length_cons]
    omega

/-- The speed ladder has one rung per configured speed. -/
theorem buildSpeedLadder_length (speeds : ℕ) :
    (buildSpeedLadder speeds).length = speeds := by
  simp [buildSpeedLadder]

/-- Every ladder rung is at most 100. -/
theorem buildSpeedLadder_le_100 (speeds : ℕ) (h2 : 2 ≤ speeds) :
    ∀ v ∈ buildSpeedLadder speeds, v ≤ 100 := by
  intro v hv
  simp only [buildSpeedLadder, List.mem_map, List.mem_range] at hv
  obtain ⟨i, hi, rfl⟩ := hv
  apply rhe_le_100 _ _ (by omega)
  calc i * 100 ≤ (speeds - 1) * 100 := Nat.mul_le_mul_right 100 (by omega)
  _ = 100 * (speeds - 1) := Nat.mul_comm _ _

/-- `getD` with in-bound rungs and an in-bound default stays at most 100. -/
theorem getD_le_100 (l : List ℕ) (n d : ℕ) (hl : ∀ x ∈ l, x ≤ 100)
    (hd : d ≤ 100) : l.getD n d ≤ 100 := by
  rcases Nat.lt_or_ge n l.length with h | h
  · rw [List.getD_eq_getElem l d h]
    exact hl _ (List.getElem_mem h)
  · rw [List.getD_eq_default l d h]
    exact hd

/-- The ladder for `s + 1` speeds, split at its last rung. -/
theorem buildSpeedLadder_split (s : ℕ) :
    buildSpeedLadder (s + 1) =
      (List.range s).map (fun i => rhe (i * 100) s) ++ [rhe (s * 100) s] := by
  simp [buildSpeedLadder, List.range_succ]

/-- The ladder for `s + 1` speeds, split at its first rung (which is 0). -/
theorem buildSpeedLadder_head (s : ℕ) (hs : 0 < s) :
    buildSpeedLadder (s + 1)
      = 0 :: (List.range s).map (fun i => rhe ((i + 1) * 100) s) := by
  simp only [buildSpeedLadder, Nat.add_sub_cancel, List.range_succ_eq_map,
    List.map_cons, List.map_map]
  rw [rhe_bot s hs]
  rfl

/-- With at most 101 speeds the nearest rung to 100 % is the top one. -/
theorem argmin_ladder_top (s : ℕ) (hs : 0 < s) (hs100 : s ≤ 100) :
    argminAbs (buildSpeedLadder (s + 1)) 100 = s := by
  have hmono := rhe_ladder_strictMono s hs hs100
  have h := argminAbs_last (buildSpeedLadder (s + 1)) 100 ?_ ?_ ?_
  · rw [h, buildSpeedLadder_length]
    omega
  · rw [buildSpeedLadder_split, List.dropLast_concat]
    intro v hv
    simp only [List.mem_map, List.mem_range] at hv
    obtain ⟨i, hi, rfl⟩ := hv
    have hlt : rhe (i * 100) s < 100 := by
      calc rhe (i * 100) s < rhe (s * 100) s := hmono hi
      _ = 100 := rhe_top s hs
    have hne : ((rhe (i * 100) s : ℚ)) ≠ 100 := by
      exact_mod_cast Nat.ne_of_lt hlt
    exact abs_pos.mpr (sub_ne_zero.mpr hne)
  · rw [buildSpeedLadder_split, List.getLast?_concat]
    intro v hv
    have : v = rhe (s * 100) s := by
      injection hv with h2
      exact h2.symm
    rw [this, rhe_top s hs]
    simp
  · rw [buildSpeedLadder_split]
    simp

/-- The nearest rung to 0 % is the bottom one (rung 0, value 0). -/
theorem argmin_ladder_bot (s : ℕ) (hs : 0 < s) :
    argminAbs (buildSpeedLadder (s + 1)) 0 = 0 := by
  rw [buildSpeedLadder_head s hs]
  apply argminAbs_head_zero
  simp

/-- C5 (amended: the endpoint no-op additionally needs the ladder rungs to
be distinct, which holds precisely when the rung spacing `100/(N-1)` is at
least one unit, i.e. `N ≤ 101`): the ladder consists of `N` rounded evenly
spaced percentages, a step emits only rung values and hence never a
percentage outside `[0,100]`, and a step away from the ladder endpoint in
the step's direction (up from 100, down from 0) emits no command at all. -/
theorem fan_step_ladder_props (speeds : ℕ) (h2 : 2 ≤ speeds)
    (h101 : speeds ≤ 101) :
    (∀ v ∈ buildSpeedLadder speeds, v ≤ 100) ∧
    (∀ (current : ℚ) (direction : ℤ) (v : ℕ),
      stepDiscrete speeds current direction = some v → v ≤ 100) ∧
    stepDiscrete speeds 100 1 = none ∧
    stepDiscrete speeds 0 (-1) = none := by
  obtain ⟨s, rfl⟩ : ∃ s, speeds = s + 1 := ⟨speeds - 1, by omega⟩
  have hs : 0 < s := by omega
  have hs100 : s ≤ 100 := by omega
  refine ⟨buildSpeedLadder_le_100 _ h2, ?_, ?_, ?_⟩
  · intro current direction v hv
    simp only [stepDiscrete] at hv
    split at hv
    · exact absurd hv (by simp)
    · simp only [Option.some.injEq] at hv
      subst hv
      exact getD_le_100 _ _ _ (buildSpeedLadder_le_100 _ h2) (by norm_num)
  · simp only [stepDiscrete, argmin_ladder_top s hs hs100,
      buildSpeedLadder_length]
    split
    · rfl
    · rename_i hne
      exfalso
      apply hne
      push_cast
      omega
  · simp only [stepDiscrete, argmin_ladder_bot s hs, buildSpeedLadder_length]
    split
    · rfl
    · rename_i hne
      exfalso
      apply hne
      push_cast
      omega

/-- Closed witness for `fan_step_ladder_props` at the 4-speed configuration
of the spec's example (ladder `{0, 33, 67, 100}`). -/
theorem fan_step_ladder_props_witness :
    ((2 : ℕ) ≤ 4 ∧ (4 : ℕ) ≤ 101) ∧
    buildSpeedLadder 4 = [0, 33, 67, 100] ∧
    stepDiscrete 4 100 1 = none ∧
    stepDiscrete 4 0 (-1) = none :=
  ⟨⟨by norm_num, by norm_num⟩, by decide,
    (fan_step_ladder_props 4 (by norm_num) (by norm_num)).2.2.1,
    (fan_step_ladder_props 4 (by norm_num) (by norm_num)).2.2.2⟩

/-- C5 counterexample: with 201 configured speeds the rounded ladder has
duplicate rungs (both rung 199 and rung 200 are 100 %), the nearest rung to
a current percentage of 100 is rung 199, and stepping up from 100 emits
`set_percentage(100)` instead of emitting nothing — the claim's endpoint
no-op fails as stated, for this `N`. -/
theorem fan_step_endpoint_violation : stepDiscrete 201 100 1 = some 100 := by
  have hsplit : buildSpeedLadder 201
      = (List.range 199).map (fun i => rhe (i * 100) 200)
        ++ rhe (199 * 100) 200 :: [rhe (200 * 100) 200] := by
    show (List.range 201).map (fun i => rhe (i * 100) (201 - 1)) = _
    rw [List.range_succ, List.range_succ, List.map_append, List.map_append,
      List.append_assoc]
    rfl
  have hidx : argminAbs (buildSpeedLadder 201) 100 = 199 := by
    rw [hsplit, argminAbs_first_zero 100 _ _ _ ?_ ?_]
    · simp
    · intro v hv
      simp only [List.mem_map, List.mem_range] at hv
      obtain ⟨i, hi, rfl⟩ := hv
      have hle : rhe (i * 100) 200 ≤ 99 := by
        apply rhe_le_mul _ _ _ (by norm_num)
        calc i * 100 ≤ 198 * 100 := Nat.mul_le_mul_right 100 (by omega)
        _ ≤ 99 * 200 := by norm_num
      have hne : ((rhe (i * 100) 200 : ℚ)) ≠ 100 := by
        exact_mod_cast Nat.ne_of_lt (by omega : rhe (i * 100) 200 < 100)
      exact abs_pos.mpr (sub_ne_zero.mpr hne)
    · have : rhe (199 * 100) 200 = 100 := by decide
      rw [this]
      simp
  simp only [stepDiscrete, hidx, buildSpeedLadder_length]
  rw [if_neg (by push_cast; omega)]
  have hind : (max 0 (min (((201 : ℕ) : ℤ) - 1) (((199 : ℕ) : ℤ) + 1))).toNat
      = 200 := by
    decide
  rw [hind, hsplit]
  have hlen : ((List.range 199).map (fun i => rhe (i * 100) 200)).length
      = 199 := by simp
  rw [List.getD_eq_getElem _ _ (by simp)]
  have : rhe (200 * 100) 200 = 100 := by decide
  simp [List.getElem_append_right, hlen, this]

/-- The immediate-tap simulator is stationary once no live tasks and no
events remain. -/
theorem itRun_stuck (cfg : ITCfg) :
    ∀ (fuel : ℕ) (s : ITState), s.tasks = [] → itRun cfg fuel s [] = s := by
  intro fuel
  induction fuel with
  | zero => intro s _; rfl
  | succ n ih =>
      intro s hs
      have h0 : itStep cfg s [] = none := by
        simp [itStep, hs, minWake?]
      rw [itRun, h0]

/-- C2 counterexample: (i) two consecutive releases of the cover handler's
Raise button, with the button never pressed, issue one `stop_cover` each;
and (ii) two consecutive releases of the light P2B On button, never
pressed, each fire the `turn_on` tap command (`_finalize_onoff_hold` fires
the tap whenever the hold ramp had not started, with no pressed-flag
guard) — so in both handlers a release of an un-pressed button issues a
command, and the pair produces two commands rather than at most one. -/
theorem double_release_double_fire :
    (CState.init.pressed = false ∧
      (cRun { hold := 4, stepPct := 10, pos := some 50, isRaise := true } 2
          CState.init [(0, false), (1, false)]).trace
        = [(0, CEmit.stop), (1, CEmit.stop)]) ∧
    (LOnOffState.init.pressed = false ∧
      (finalizeOnOffHold "turn_on"
          (finalizeOnOffHold "turn_on" LOnOffState.init)).trace
        = ["turn_on", "turn_on"]) :=
  ⟨⟨rfl, by decide⟩, ⟨rfl, by decide⟩⟩

/-- C2 (amended: every release resets its button's bookkeeping — pressed
flag, holding flag, stored task handle — idempotently, but release is not
command-free in every handler: the fan, light and media-player raise/lower
releases issue no command at all, so a release with the pressed flag
already false is a complete no-op there and two consecutive releases issue
zero commands; the cover handler's raise/lower releases unconditionally
issue one `stop_cover` each; and the light P2B on/off releases fire the tap
command (`turn_on`/`turn_off`) whenever the hold ramp had not started, even
when the button was never pressed — so for those two families two
consecutive releases issue two commands, not at most one. The remaining
release methods of every handler are literal no-ops in the source.) -/
theorem release_idempotent_amended :
    (∀ s : ITState, (itRelease s).trace = s.trace ∧
      itRelease (itRelease s) = itRelease s) ∧
    (∀ (t : ℕ) (s : CState),
      (cRelease t s).trace = s.trace ++ [(t, CEmit.stop)] ∧
      (cRelease t s).pressed = false ∧ (cRelease t s).tasks = s.tasks) ∧
    (∀ (tapCmd : String) (s : LOnOffState),
      ((finalizeOnOffHold tapCmd s).pressed = false ∧
       (finalizeOnOffHold tapCmd s).isHolding = false ∧
       (finalizeOnOffHold tapCmd s).stored = none) ∧
      (finalizeOnOffHold tapCmd (finalizeOnOffHold tapCmd s)).tasks
        = (finalizeOnOffHold tapCmd s).tasks ∧
      (s.isHolding = false →
        (finalizeOnOffHold tapCmd s).trace = s.trace ++ [tapCmd]) ∧
      (s.isHolding = true →
        (finalizeOnOffHold tapCmd s).trace = s.trace)) := by
  refine ⟨fun s => ⟨rfl, rfl⟩, fun t s => ⟨rfl, rfl, rfl⟩,
    fun tapCmd s => ⟨⟨rfl, rfl, rfl⟩, rfl, fun h => ?_, fun h => ?_⟩⟩
  · simp [finalizeOnOffHold, h]
  · simp [finalizeOnOffHold, h]

/-- Closed witness for `release_idempotent_amended`: releasing the
never-pressed (hence non-holding) P2B On button fires its tap command. -/
theorem release_idempotent_amended_witness :
    LOnOffState.init.isHolding = false ∧
    (finalizeOnOffHold "turn_on" LOnOffState.init).trace
      = LOnOffState.init.trace ++ ["turn_on"] :=
  ⟨rfl,
    (release_idempotent_amended.2.2 "turn_on" LOnOffState.init).2.2.1 rfl⟩

/-- C4: under the immediate-tap policy (the raise/lower buttons of the fan,
light and media-player handlers), a press at time 0 followed by a release
strictly before `hold_time` produces exactly one step invocation (the
immediate tap) and zero ramp-loop iterations, for every scheduling budget:
the release cancels the still-pending hold task, so no step from that task
ever executes after the release. -/
theorem immediate_tap_single_step (cfg : ITCfg) (r : ℕ) (hr : r < cfg.hold) :
    (∀ fuel, ∀ e ∈ (itRun cfg fuel ITState.init [(0, true), (r, false)]).trace,
      e = (0, ITEmit.tap)) ∧
    (∀ fuel, 2 ≤ fuel →
      (itRun cfg fuel ITState.init [(0, true), (r, false)]).trace
        = [(0, ITEmit.tap)]) := by
  have h1 : itStep cfg ITState.init [(0, true), (r, false)]
      = some (itPress cfg 0 ITState.init, [(r, false)]) := by
    simp [itStep, ITState.init, minWake?]
  have hc : r ≤ cfg.hold := Nat.le_of_lt hr
  have h2 : itStep cfg (itPress cfg 0 ITState.init) [(r, false)]
      = some ({ pressed := false, stored := none, tasks := [], nextId := 1,
                trace := [(0, ITEmit.tap)] }, []) := by
    simp [itStep, itPress, itRelease, ITState.init, minWake?, hc]
  have key : ∀ m, itRun cfg (m + 2) ITState.init [(0, true), (r, false)]
      = { pressed := false, stored := none, tasks := [], nextId := 1,
          trace := [(0, ITEmit.tap)] } := by
    intro m
    show itRun cfg (m + 1 + 1) ITState.init [(0, true), (r, false)] = _
    simp only [itRun, h1, h2]
    exact itRun_stuck cfg m _ rfl
  constructor
  · intro fuel e he
    match fuel with
    | 0 => simp [itRun, ITState.init] at he
    | 1 =>
        simp only [itRun, h1] at he
        simp [itPress, ITState.init] at he
        simp [he]
    | (m + 2) =>
        rw [key m] at he
        simp at he
        simp [he]
  · intro fuel hfuel
    obtain ⟨m, rfl⟩ : ∃ m, fuel = m + 2 := ⟨fuel - 2, by omega⟩
    rw [key m]

/-- Closed witness for `immediate_tap_single_step`: hold time 4 ticks,
release at tick 2. -/
theorem immediate_tap_single_step_witness :
    (2 : ℕ) < ITCfg.hold { hold := 4, step := 10 } ∧
    (itRun { hold := 4, step := 10 } 6 ITState.init
        [(0, true), (2, false)]).trace = [(0, ITEmit.tap)] :=
  ⟨by decide,
    (immediate_tap_single_step { hold := 4, step := 10 } 2 (by decide)).2 6
      (by norm_num)⟩

/-- The cover simulator is stationary once no tasks and no events remain. -/
theorem cRun_stuck (cfg : CCfg) :
    ∀ (fuel : ℕ) (s : CState), s.tasks = [] → cRun cfg fuel s [] = s := by
  intro fuel
  induction fuel with
  | zero => intro s _; rfl
  | succ n ih =>
      intro s hs
      have h0 : cStep cfg s [] = none := by
        simp [cStep, hs, cMinWake?]
      rw [cRun, h0]

/-- C3 counterexample: pressing the cover Raise button (reported position
50 %, step 10 %) immediately issues `set_cover_position(60)` before any
release or hold-timer event — the claim's "on press no command is issued"
fails on the code, which fires the position step at press time. -/
theorem cover_press_emits_immediately :
    (cRun { hold := 4, stepPct := 10, pos := some 50, isRaise := true } 1
        CState.init [(0, true)]).trace = [(0, CEmit.step 60)] := by
  decide

/-- C3 (amended: the cover Raise/Lower buttons follow the immediate-step
variant, not a deferred tap: the press itself issues exactly one
position-step command, clamped to `[0,100]`, and arms the hold lifecycle;
when release arrives before `hold_time` no further command precedes the
stop; when the hold timer fires while still pressed a single continuous
open/close command is issued; and every release issues a stop command). -/
theorem cover_raise_lower_behavior (cfg : CCfg) (p : ℤ) (r bigR : ℕ)
    (hp : cfg.pos = some p) (hp0 : 0 ≤ p) (hp100 : p ≤ 100)
    (hstep : 0 ≤ cfg.stepPct) (hr : r < cfg.hold) (hR : cfg.hold < bigR) :
    ∃ v : ℤ,
      v = (if cfg.isRaise then min 100 (p + cfg.stepPct)
           else max 0 (p - cfg.stepPct)) ∧ 0 ≤ v ∧ v ≤ 100 ∧
      (∀ fuel, 3 ≤ fuel →
        (cRun cfg fuel CState.init [(0, true), (r, false)]).trace
          = [(0, CEmit.step v), (r, CEmit.stop)]) ∧
      (∀ fuel, 3 ≤ fuel →
        (cRun cfg fuel CState.init [(0, true), (bigR, false)]).trace
          = [(0, CEmit.step v), (cfg.hold, CEmit.motion),
             (bigR, CEmit.stop)]) := by
  refine ⟨(if cfg.isRaise then min 100 (p + cfg.stepPct)
           else max 0 (p - cfg.stepPct)), rfl, ?_, ?_, ?_, ?_⟩
  · split_ifs <;> omega
  · split_ifs <;> omega
  all_goals
    have h1 : ∀ rest, cStep cfg CState.init ((0, true) :: rest)
        = some ({ pressed := true, tasks := [{ id := 0, wake := cfg.hold }],
                  nextId := 1,
                  trace := [(0, CEmit.step
                    (if cfg.isRaise then min 100 (p + cfg.stepPct)
                     else max 0 (p - cfg.stepPct)))] }, rest) := by
      intro rest
      simp [cStep, CState.init, cMinWake?, cPress, coverStepEmit, hp]
  · have hc : r ≤ cfg.hold := Nat.le_of_lt hr
    have h2 : cStep cfg
        { pressed := true, tasks := [{ id := 0, wake := cfg.hold }],
          nextId := 1,
          trace := [(0, CEmit.step
            (if cfg.isRaise then min 100 (p + cfg.stepPct)
             else max 0 (p - cfg.stepPct)))] } [(r, false)]
        = some ({ pressed := false,
                  tasks := [{ id := 0, wake := cfg.hold }], nextId := 1,
                  trace := [(0, CEmit.step
                    (if cfg.isRaise then min 100 (p + cfg.stepPct)
                     else max 0 (p - cfg.stepPct))), (r, CEmit.stop)] },
            []) := by
      simp [cStep, cMinWake?, cRelease, hc]
    have h3 : cStep cfg
        { pressed := false, tasks := [{ id := 0, wake := cfg.hold }],
          nextId := 1,
          trace := [(0, CEmit.step
            (if cfg.isRaise then min 100 (p + cfg.stepPct)
             else max 0 (p - cfg.stepPct))), (r, CEmit.stop)] } []
        = some ({ pressed := false, tasks := [], nextId := 1,
                  trace := [(0, CEmit.step
                    (if cfg.isRaise then min 100 (p + cfg.stepPct)
                     else max 0 (p - cfg.stepPct))), (r, CEmit.stop)] },
            []) := by
      simp [cStep, cMinWake?, cWake]
    intro fuel hfuel
    obtain ⟨m, rfl⟩ : ∃ m, fuel = m + 3 := ⟨fuel - 3, by omega⟩
    show (cRun cfg (m + 1 + 1 + 1) CState.init [(0, true), (r, false)]).trace
      = _
    simp only [cRun, h1, h2, h3]
    rw [cRun_stuck cfg m _ rfl]
  · have hcB : ¬ bigR ≤ cfg.hold := by omega
    have h2 : cStep cfg
        { pressed := true, tasks := [{ id := 0, wake := cfg.hold }],
          nextId := 1,
          trace := [(0, CEmit.step
            (if cfg.isRaise then min 100 (p + cfg.stepPct)
             else max 0 (p - cfg.stepPct)))] } [(bigR, false)]
        = some ({ pressed := true, tasks := [], nextId := 1,
                  trace := [(0, CEmit.step
                    (if cfg.isRaise then min 100 (p + cfg.stepPct)
                     else max 0 (p - cfg.stepPct))),
                    (cfg.hold, CEmit.motion)] }, [(bigR, false)]) := by
      simp [cStep, cMinWake?, cWake, hcB]
    have h3 : cStep cfg
        { pressed := true, tasks := ([] : List CTask), nextId := 1,
          trace := [(0, CEmit.step
            (if cfg.isRaise then min 100 (p + cfg.stepPct)
             else max 0 (p - cfg.stepPct))), (cfg.hold, CEmit.motion)] }
          [(bigR, false)]
        = some ({ pressed := false, tasks := [], nextId := 1,
                  trace := [(0, CEmit.step
                    (if cfg.isRaise then min 100 (p + cfg.stepPct)
                     else max 0 (p - cfg.stepPct))),
                    (cfg.hold, CEmit.motion), (bigR, CEmit.stop)] },
            []) := by
      simp [cStep, cMinWake?, cRelease]
    intro fuel hfuel
    obtain ⟨m, rfl⟩ : ∃ m, fuel = m + 3 := ⟨fuel - 3, by omega⟩
    show (cRun cfg (m + 1 + 1 + 1) CState.init
        [(0, true), (bigR, false)]).trace = _
    simp only [cRun, h1, h2, h3]
    rw [cRun_stuck cfg m _ rfl]

/-- Closed witness for `cover_raise_lower_behavior`: position 50 %, step
10 %, hold 4 ticks, tap released at tick 2 and hold released at tick 7. -/
theorem cover_raise_lower_behavior_witness :
    (CCfg.pos { hold := 4, stepPct := 10, pos := some 50, isRaise := true }
        = some 50 ∧ (0 : ℤ) ≤ 50 ∧ (50 : ℤ) ≤ 100 ∧
      (2 : ℕ) < 4 ∧ (4 : ℕ) < 7) ∧
    (cRun { hold := 4, stepPct := 10, pos := some 50, isRaise := true } 5
        CState.init [(0, true), (2, false)]).trace
      = [(0, CEmit.step 60), (2, CEmit.stop)] := by
  obtain ⟨v, hv, h0, h100, htap, hhold⟩ :=
    cover_raise_lower_behavior
      { hold := 4, stepPct := 10, pos := some 50, isRaise := true } 50 2 7
      rfl (by norm_num) (by norm_num) (by norm_num) (by norm_num)
      (by norm_num)
  refine ⟨⟨rfl, by norm_num, by norm_num, by norm_num, by norm_num⟩, ?_⟩
  rw [htap 5 (by norm_num), hv]
  norm_num

/-- Unfolding of `minWake?` on a cons whose tail has no live task. -/
theorem minWake?_cons_none (u : ITTask) (rest : List ITTask)
    (h : minWake? rest = none) : minWake? (u :: rest) = some u := by
  rw [minWake?, h]

/-- Unfolding of `minWake?` on a cons whose tail has a minimal task. -/
theorem minWake?_cons_some (u : ITTask) (rest : List ITTask) (tk2 : ITTask)
    (h : minWake? rest = some tk2) :
    minWake? (u :: rest) = if u.wake ≤ tk2.wake then some u else some tk2 := by
  rw [minWake?, h]

/-- Unfolding of `itStep` with no events and no live task. -/
theorem itStep_nil_none (cfg : ITCfg) (s : ITState)
    (h : minWake? s.tasks = none) : itStep cfg s [] = none := by
  unfold itStep
  rw [h]

/-- Unfolding of `itStep` with no events and a minimal live task. -/
theorem itStep_nil_some (cfg : ITCfg) (s : ITState) (tk : ITTask)
    (h : minWake? s.tasks = some tk) :
    itStep cfg s [] = some (itWake cfg tk s, []) := by
  unfold itStep
  rw [h]

/-- Unfolding of `itStep` with a pending event and no live task. -/
theorem itStep_cons_none (cfg : ITCfg) (s : ITState) (t : ℕ) (isP : Bool)
    (rest : List (ℕ × Bool)) (h : minWake? s.tasks = none) :
    itStep cfg s ((t, isP) :: rest)
      = some ((if isP then itPress cfg t s else itRelease s), rest) := by
  unfold itStep
  rw [h]

/-- Unfolding of `itStep` with a pending event and a minimal live task. -/
theorem itStep_cons_some (cfg : ITCfg) (s : ITState) (t : ℕ) (isP : Bool)
    (rest : List (ℕ × Bool)) (tk : ITTask)
    (h : minWake? s.tasks = some tk) :
    itStep cfg s ((t, isP) :: rest)
      = if t ≤ tk.wake
        then some ((if isP then itPress cfg t s else itRelease s), rest)
        else some (itWake cfg tk s, (t, isP) :: rest) := by
  unfold itStep
  rw [h]

/-- A minimal-wake selection returns a member of the list. -/
theorem minWake?_mem : ∀ (l : List ITTask) (tk : ITTask),
    minWake? l = some tk → tk ∈ l := by
  intro l
  induction l with
  | nil => intro tk h; exact absurd h (by simp [minWake?])
  | cons u rest ih =>
      intro tk h
      cases hm : minWake? rest with
      | none =>
          rw [minWake?_cons_none u rest hm] at h
          injection h with h
          exact h ▸ List.mem_cons_self _ _
      | some tk2 =>
          rw [minWake?_cons_some u rest tk2 hm] at h
          split_ifs at h <;> injection h with h
          · exact h ▸ List.mem_cons_self _ _
          · exact List.mem_cons_of_mem _ (h ▸ ih tk2 hm)

/-- A press from the un-pressed state preserves the task invariant. -/
theorem itPress_inv (cfg : ITCfg) (t : ℕ) (s : ITState) (hinv : ITInv s)
    (hp : s.pressed = false) : ITInv (itPress cfg t s) := by
  have htasks : s.tasks = [] := hinv.1 hp
  refine ⟨?_, ?_, ?_⟩ <;> simp [itPress, htasks]

/-- A release preserves the task invariant and leaves no live task. -/
theorem itRelease_inv (s : ITState) (hinv : ITInv s) :
    ITInv (itRelease s) ∧ (itRelease s).tasks = [] := by
  have h2 := hinv.2.1
  have htasks : (itRelease s).tasks = [] := by
    simp only [itRelease]
    cases hst : s.stored with
    | none =>
        rw [List.eq_nil_iff_forall_not_mem]
        intro tk htk
        have := h2 tk htk
        rw [hst] at this
        exact Option.noConfusion this
    | some i =>
        rw [List.filter_eq_nil_iff]
        intro tk htk
        have := h2 tk htk
        rw [hst] at this
        injection this with hh
        simp [hh]
  exact ⟨⟨fun _ => htasks, by rw [htasks]; simp, by rw [htasks]; simp⟩,
    htasks⟩

/-- A task wake-up never changes the pressed flag. -/
theorem itWake_pressed (cfg : ITCfg) (tk : ITTask) (s : ITState) :
    (itWake cfg tk s).pressed = s.pressed := by
  unfold itWake
  split_ifs <;> rfl

/-- A task wake-up preserves the task invariant. -/
theorem itWake_inv (cfg : ITCfg) (tk : ITTask) (s : ITState)
    (hinv : ITInv s) : ITInv (itWake cfg tk s) := by
  by_cases hp : s.pressed
  · simp only [itWake, if_pos hp]
    refine ⟨fun h => absurd h (by simp [hp]), ?_, ?_⟩
    · intro u hu
      simp only [List.mem_map] at hu
      obtain ⟨u0, hu0, rfl⟩ := hu
      have h := hinv.2.1 u0 hu0
      by_cases he : u0.id = tk.id <;> simp [he, h]
    · simpa [List.length_map] using hinv.2.2
  · have htasks : s.tasks = [] := hinv.1 (by simpa using hp)
    simp only [itWake, if_neg hp]
    refine ⟨fun _ => ?_, ?_, ?_⟩ <;> simp [htasks]

/-- One scheduling step preserves the invariant and the well-formedness of
the remaining event stream. -/
theorem itStep_inv (cfg : ITCfg) (s : ITState) (evs : List (ℕ × Bool))
    (s2 : ITState) (evs2 : List (ℕ × Bool)) (hinv : ITInv s)
    (hwf : WFEvents s.pressed evs = true)
    (h : itStep cfg s evs = some (s2, evs2)) :
    ITInv s2 ∧ WFEvents s2.pressed evs2 = true := by
  rcases evs with _ | ⟨⟨t, isP⟩, rest⟩
  · cases hmw : minWake? s.tasks with
    | none =>
        rw [itStep_nil_none cfg s hmw] at h
        exact absurd h (by simp)
    | some tk =>
        rw [itStep_nil_some cfg s tk hmw] at h
        injection h with h
        injection h with h1 h2
        subst h1
        subst h2
        exact ⟨itWake_inv cfg tk s hinv, rfl⟩
  · rw [WFEvents, Bool.and_eq_true] at hwf
    obtain ⟨hwf1, hwf2⟩ := hwf
    rw [decide_eq_true_eq] at hwf1
    cases hmw : minWake? s.tasks with
    | none =>
        rw [itStep_cons_none cfg s t isP rest hmw] at h
        injection h with h
        injection h with h1 h2
        subst h2
        cases isP with
        | false =>
            have hps : s.pressed = true := by
              cases hpp : s.pressed
              · rw [hpp] at hwf1; exact absurd hwf1 (by simp)
              · rfl
            simp at h1
            subst h1
            exact ⟨(itRelease_inv s hinv).1, hwf2⟩
        | true =>
            have hps : s.pressed = false := by
              cases hpp : s.pressed
              · rfl
              · rw [hpp] at hwf1; exact absurd hwf1 (by simp)
            simp at h1
            subst h1
            exact ⟨itPress_inv cfg t s hinv hps, hwf2⟩
    | some tk =>
        rw [itStep_cons_some cfg s t isP rest tk hmw] at h
        by_cases hle : t ≤ tk.wake
        · rw [if_pos hle] at h
          injection h with h
          injection h with h1 h2
          subst h2
          cases isP with
          | false =>
              have hps : s.pressed = true := by
                cases hpp : s.pressed
                · rw [hpp] at hwf1; exact absurd hwf1 (by simp)
                · rfl
              simp at h1
              subst h1
              exact ⟨(itRelease_inv s hinv).1, hwf2⟩
          | true =>
              have hps : s.pressed = false := by
                cases hpp : s.pressed
                · rfl
                · rw [hpp] at hwf1; exact absurd hwf1 (by simp)
              simp at h1
              subst h1
              exact ⟨itPress_inv cfg t s hinv hps, hwf2⟩
        · rw [if_neg hle] at h
          injection h with h
          injection h with h1 h2
          subst h1
          subst h2
          refine ⟨itWake_inv cfg tk s hinv, ?_⟩
          rw [itWake_pressed, WFEvents, Bool.and_eq_true, decide_eq_true_eq]
          exact ⟨hwf1, hwf2⟩

/-- Along a well-formed event stream, every reachable state of the
immediate-tap simulator satisfies the task invariant. -/
theorem itRun_inv (cfg : ITCfg) :
    ∀ (fuel : ℕ) (s : ITState) (evs : List (ℕ × Bool)), ITInv s →
      WFEvents s.pressed evs = true → ITInv (itRun cfg fuel s evs) := by
  intro fuel
  induction fuel with
  | zero => intro s evs hinv _; exact hinv
  | succ n ih =>
      intro s evs hinv hwf
      cases hstep : itStep cfg s evs with
      | none => simp only [itRun, hstep]; exact hinv
      | some pr =>
          obtain ⟨s2, evs2⟩ := pr
          simp only [itRun, hstep]
          obtain ⟨hinv2, hwf2⟩ := itStep_inv cfg s evs s2 evs2 hinv hwf hstep
          exact ih s2 evs2 hinv2 hwf2

/-- C1 counterexample: pressing the fan/light raise button twice without an
intervening release (`hold_time` 4, `step_time` 10) leaves the first hold
task un-cancelled: after the second press both hold tasks enter their ramp
loops and both issue step commands (task 0 at ticks 4 and 14, task 1 at
ticks 5 and 15), and task 0 is still live afterwards — the claim that the
previously stored task is cancelled before the new one starts fails on the
code, which overwrites the stored handle without cancelling. -/
theorem double_press_two_live_ramp_loops :
    ((itRun { hold := 4, step := 10 } 6 ITState.init
        [(0, true), (1, true)]).trace
      = [(0, ITEmit.tap), (1, ITEmit.tap), (4, ITEmit.ramp 0),
         (5, ITEmit.ramp 1), (14, ITEmit.ramp 0), (15, ITEmit.ramp 1)]) ∧
    { id := 0, wake := 24 } ∈ (itRun { hold := 4, step := 10 } 6 ITState.init
        [(0, true), (1, true)]).tasks := by
  decide

/-- C1 (amended: a release cancels the stored hold task, and along
well-formed event streams — presses and releases strictly alternating, as a
physical button produces — at most one hold/ramp task per button is ever
live; but a press while already pressed does not cancel the previously
stored task: it overwrites the stored handle, so two concurrently live ramp
loops for the same button are reachable via a double press). -/
theorem at_most_one_live_task (cfg : ITCfg) (evs : List (ℕ × Bool))
    (fuel : ℕ) (hwf : WFEvents false evs = true) :
    (itRun cfg fuel ITState.init evs).tasks.length ≤ 1 :=
  (itRun_inv cfg fuel ITState.init evs
    ⟨fun _ => rfl, by simp [ITState.init], by simp [ITState.init]⟩ hwf).2.2

/-- Closed witness for `at_most_one_live_task` on the alternating stream
press, release, press. -/
theorem at_most_one_live_task_witness :
    WFEvents false [(0, true), (5, false), (9, true)] = true ∧
    (itRun { hold := 4, step := 10 } 8 ITState.init
        [(0, true), (5, false), (9, true)]).tasks.length ≤ 1 :=
  ⟨by decide,
    at_most_one_live_task { hold := 4, step := 10 }
      [(0, true), (5, false), (9, true)] 8 (by decide)⟩

/-- C9: for every bound profile and every incoming event, any exception the
profile's `handle_press`/`handle_release` raises is caught and logged at the
dispatch boundary of `handle_event`; the callback returns normally and the
event subscription stays intact. -/
theorem dispatch_never_propagates (profile : ProfileFun) (sub : Bool)
    (d : EventData) :
    ∃ o : DispatchOutcome,
      handleEvent profile sub d = Except.ok o ∧ o.subscribed = sub := by
  unfold handleEvent
  split
  · exact ⟨_, rfl, rfl⟩
  · split
    · exact ⟨_, rfl, rfl⟩
    · split
      · exact ⟨_, rfl, rfl⟩
      · split
        · exact ⟨_, rfl, rfl⟩
        · exact ⟨_, rfl, rfl⟩

end PicoLink
